import Mathlib

/-!
Shallow embedding of the ZhihuQuestionTracker core (src/data.py, src/tracker.py).

Python dicts preserve insertion order, so `Store` and the watched set are
modelled as insertion-ordered association lists.  Machine-relevant numeric
fields are modelled as `Int` (counts) and `Rat` (the potential score, a float
used only for comparison and subtraction-free ordering here).  The timestamp
produced by `datetime.now().strftime(...)` is passed in as an explicit `now`
string parameter.
-/

namespace ZQT

/-- One question record as handled by `data.py`.  Incoming (raw) items carry
`saved_at = none`; `update_question_history` stamps the record with the current
time before storing it.  Payload fields that no claim touches (question text,
topics, raw strings, date) are omitted: they are carried around untouched by the
Python code and never read by the operations modelled here. -/
structure Question where
  question_url : String
  view_total : Int
  answer_total : Int
  potential_score : Rat
  saved_at : Option String := none
deriving DecidableEq, Repr

abbrev History := List Question

/-- Model of self.questions: dict question_url -> history, insertion ordered. -/
abbrev Store := List (String × History)

/-- Model of self.watched_questions: dict question_url -> snapshot, insertion
ordered. -/
abbrev WatchSet := List (String × Question)

/-- Dict lookup (`d.get(k)` / `k in d`). -/
def dictFind {β : Type} : List (String × β) → String → Option β
  | [], _ => none
  | (k', v) :: rest, k => if k' = k then some v else dictFind rest k

/-- Dict assignment `d[k] = v`: overwrite in place if the key exists,
otherwise append at the end (Python dicts keep insertion order). -/
def dictSet {β : Type} : List (String × β) → String → β → List (String × β)
  | [], k, v => [(k, v)]
  | (k', v') :: rest, k, v =>
    if k' = k then (k, v) :: rest else (k', v') :: dictSet rest k v

/-- Dict deletion `del d[k]` (keys are unique in a Python dict). -/
def dictErase {β : Type} (d : List (String × β)) (k : String) : List (String × β) :=
  d.filter (fun p => p.1 ≠ k)

/-- Stamping (data.py line 144): the code assigns the current wall-clock time
string to the saved_at field of the incoming record, in place. -/
def stamp (now : String) (q : Question) : Question :=
  { q with saved_at := some now }

/-- Eviction loop of data.py lines 148-149 (while the length exceeds
max_history, pop the front):
drop the oldest entries until at most `mh` remain. -/
def truncateHistory (mh : Nat) (h : History) : History :=
  h.drop (h.length - mh)

/-- Model of DataManager.update_question_history (data.py lines 132-149): stamp the
incoming record with `saved_at = now`, append it to the history of the key
(creating the key if absent), then evict oldest entries beyond `max_history`. -/
def update_question_history (mh : Nat) (now : String) (s : Store)
    (url : String) (q : Question) : Store :=
  let h := (dictFind s url).getD []
  dictSet s url (truncateHistory mh (h ++ [stamp now q]))

/-- One element of the updated list of the change record (data.py lines
169-173). -/
structure UpdatedEntry where
  question_url : String
  view_increment : Int
  answer_increment : Int
deriving DecidableEq, Repr

/-- The change record returned by `update_questions`, with an updated list
and a new list. -/
structure Changes where
  updated : List UpdatedEntry
  new : List Question
deriving DecidableEq, Repr

/-- The loop of `DataManager.update_questions` (data.py lines 158-178).
For each incoming item: if its url has a non-empty stored history, compute the
view/answer increments against the last stored snapshot and record an updated
entry when either is non-zero; otherwise record the item in `new`.  In both
cases the item is then stored via `update_question_history`.

The Python code appends the incoming dict object itself to the new list,
and `update_question_history` later mutates that same object, adding
saved_at; so at return time every entry of the new list is the stamped
record.  The pure embedding therefore places `stamp now q` in `new`. -/
def update_questions (mh : Nat) (now : String) (s : Store) :
    List Question → Store × Changes
  | [] => (s, ⟨[], []⟩)
  | q :: rest =>
    let url := q.question_url
    let s' := update_question_history mh now s url q
    let r := update_questions mh now s' rest
    match ((dictFind s url).getD []).getLast? with
    | some old =>
      let vi := q.view_total - old.view_total
      let ai := q.answer_total - old.answer_total
      if vi ≠ 0 ∨ ai ≠ 0 then
        (r.1, ⟨⟨url, vi, ai⟩ :: r.2.updated, r.2.new⟩)
      else
        (r.1, r.2)
    | none => (r.1, ⟨r.2.updated, stamp now q :: r.2.new⟩)

/-! C3: bounded-history store invariant over arbitrary merge sequences -/

/-- A whole run seen as single-item insertions: each batch `(now, qs)` of a
`update_questions` call contributes its items tagged with the timestamp of that call, namely its
timestamp, in order. -/
def flattenBatches (batches : List (String × List Question)) :
    List (String × Question) :=
  batches.flatMap (fun b => b.2.map (fun q => (b.1, q)))

/-- The stamped snapshots inserted for key `k` by a run, in insertion order. -/
def insFor (k : String) (items : List (String × Question)) : History :=
  (items.filter (fun p => p.2.question_url = k)).map (fun p => stamp p.1 p.2)

/-- One single-item insertion step (the body of the `update_questions` loop,
restricted to its store effect). -/
def stepMerge (mh : Nat) (s : Store) (p : String × Question) : Store :=
  update_question_history mh p.1 s p.2.question_url p.2

/-- A sequence of `update_questions` calls starting from the empty store. -/
def mergeAll (mh : Nat) (batches : List (String × List Question)) : Store :=
  batches.foldl (fun s b => (update_questions mh b.1 s b.2).1) []

/-- Replay of the insertions of one key: fold of append-then-truncate. -/
def applyIns (mh : Nat) : Option History → History → Option History
  | h?, [] => h?
  | h?, x :: xs => applyIns mh (some (truncateHistory mh ((h?.getD []) ++ [x]))) xs

/-! The question-list projection (`DataManager.get_question_list`) -/

/-- The sort key of `sorted(self.questions.items(), key=lambda x:
x[1][0]["potential_score"], reverse=True)` (data.py line 100): the potential
score of the FIRST (oldest) history entry.  Python raises `IndexError` on an
empty history here; the store invariant (claim C3) rules empty histories out,
and every theorem below only evaluates this on such stores, so the `none`
branch is an irrelevant default. -/
def sortKey (p : String × History) : Rat :=
  match p.2.head? with
  | some q => q.potential_score
  | none => 0

/-- Stable insertion into a descending-by-`sortKey` list: walk past strictly
greater keys, insert before the first key that is `≤`.  Together with
`sortDesc` this is the Python stable `sorted(..., reverse=True)`: descending
keys, original relative order preserved among equal keys. -/
def insertDesc (x : String × History) :
    List (String × History) → List (String × History)
  | [] => [x]
  | y :: ys => if sortKey x < sortKey y then y :: insertDesc x ys else x :: y :: ys

/-- Stable descending sort by `sortKey` (model of data.py line 100). -/
def sortDesc : List (String × History) → List (String × History)
  | [] => []
  | x :: xs => insertDesc x (sortDesc xs)

/-- First loop of `get_question_list` (data.py lines 94-98): for each watched
key in insertion order, if its stored history is non-empty, emit the latest
snapshot and remember the key. -/
def watchedPass (questions : Store) :
    List (String × Question) → List Question × List String
  | [] => ([], [])
  | w :: ws =>
    match ((dictFind questions w.1).getD []).getLast? with
    | some q =>
      let r := watchedPass questions ws
      (q :: r.1, w.1 :: r.2)
    | none => watchedPass questions ws

/-- Second loop of `get_question_list` (data.py lines 100-106): over the
sorted items, skip empty histories, skip keys already emitted, emit the latest
snapshot of each remaining key and remember it. -/
def rankedPass (seen : List String) :
    List (String × History) → List Question × List String
  | [] => ([], [])
  | kh :: rest =>
    match kh.2.getLast? with
    | some q =>
      if kh.1 ∈ seen then rankedPass seen rest
      else
        let r := rankedPass (seen ++ [kh.1]) rest
        (q :: r.1, kh.1 :: r.2)
    | none => rankedPass seen rest

/-- Model of `get_question_list` together with its internal `question_id_list`
bookkeeping (the Python function returns only the first component). -/
def get_question_list_aux (questions : Store) (watched : WatchSet) :
    List Question × List String :=
  let w := watchedPass questions watched
  let r := rankedPass w.2 (sortDesc questions)
  (w.1 ++ r.1, w.2 ++ r.2)

/-- Model of DataManager.get_question_list (data.py lines 86-107). -/
def get_question_list (questions : Store) (watched : WatchSet) : List Question :=
  (get_question_list_aux questions watched).1

/-! Lemmas about the stable sort and the two projection passes -/

/-- The combined order produced by a stable descending sort whose input is
`Pairwise Q`: strictly greater key first, ties resolved by `Q` (the input
order). -/
def sortRel (Q : (String × History) → (String × History) → Prop)
    (a b : String × History) : Prop :=
  sortKey b < sortKey a ∨ (sortKey a = sortKey b ∧ Q a b)

/-- Position of a key in the insertion order of the store. -/
def keyIdx (questions : Store) (k : String) : Nat :=
  (questions.map Prod.fst).indexOf k

/-! C4 and C2: the ordering guarantees of the projection -/

/-- Latest-snapshot potential score of a key (what the spec claims the ranked
section is ordered by). -/
def latestScore (questions : Store) (k : String) : Rat :=
  (((dictFind questions k).getD []).getLast?.map Question.potential_score).getD 0

/-- Oldest-retained-snapshot potential score of a key (what the code actually
orders by: `x[1][0]["potential_score"]`). -/
def oldestScore (questions : Store) (k : String) : Rat :=
  (((dictFind questions k).getD []).head?.map Question.potential_score).getD 0

/-- Concrete two-key store on which the latest-score and oldest-score
orderings disagree: key "a" has history scores 1 then 10, key "b" has 5
then 5. -/
def cexStore : Store :=
  [("a", [⟨"a", 0, 0, 1, none⟩, ⟨"a", 0, 0, 10, none⟩]),
   ("b", [⟨"b", 0, 0, 5, none⟩, ⟨"b", 0, 0, 5, none⟩])]

/-! C5: `EventSource._notify_listeners` (data.py lines 62-65)

The loop `for listener in self._listeners: listener.update(self._data)` has no
exception handling: a listener whose `update` raises aborts the loop and the
exception propagates to the broadcaster.  A listener callback is modelled as a
function into `Except`; the model returns the indices invoked (in order) and
the escaping exception, if any. -/

def notifyFrom {α ε : Type} (d : α) (i : Nat) :
    List (α → Except ε Unit) → List Nat × Option ε
  | [] => ([], none)
  | l :: rest =>
    match l d with
    | Except.ok _ =>
      let r := notifyFrom d (i + 1) rest
      (i :: r.1, r.2)
    | Except.error e => ([i], some e)

/-- Model of the EventSource notifier: call each registered listener in
registration order; an exception stops the iteration and escapes. -/
def notify_listeners {α ε : Type} (ls : List (α → Except ε Unit)) (d : α) :
    List Nat × Option ε :=
  notifyFrom d 0 ls

/-- Two always-succeeding listeners, used to instantiate the amended C5. -/
def okListeners : List (Nat → Except String Unit) :=
  [fun _ => Except.ok (), fun _ => Except.ok ()]

/-! C6: persistence strictly precedes notification (data.py lines 180-184) -/

/-- Externally visible side effects of one `update_questions` call. -/
inductive Effect where
  | save (path : String) (store : Store)
  | notifyAll (store : Store)
deriving DecidableEq, Repr

/-- Model of DataManager.update_questions with its effect tail (data.py lines
180-184): after the merge loop, `self.save_data(self.questions,
self.data_file)` runs, then `self._notify_listeners()`; both observe the
fully merged store. -/
def update_questions_run (mh : Nat) (now : String) (dataFile : String)
    (s : Store) (qs : List Question) : (Store × Changes) × List Effect :=
  let r := update_questions mh now s qs
  (r, [Effect.save dataFile r.1, Effect.notifyAll r.1])

/-! C7: `DataTracker.stop` (tracker.py lines 58-59) and the worker loop
(lines 46-56)

Interleaving model of the worker thread and a caller of `stop()`.  The worker
program counter follows `run()`: check `stop_event.is_set()` at the loop head,
run `perform_update()` (which, on a successful cycle, mutates the store via
`update_questions`), then `stop_event.wait(interval)` (which also returns as
soon as the event is set).  `stop()` is exactly `self.stop_event.set()`: it
sets the flag and returns immediately — it never joins the worker thread. -/

inductive WPC where
  | checkLoop
  | midCycle
  | waiting
  | exited
deriving DecidableEq, Repr

structure TrackerState where
  stopRequested : Bool
  stopReturned : Bool
  pc : WPC
  mutations : Nat
deriving DecidableEq, Repr

inductive TrackerStep : TrackerState → TrackerState → Prop where
  | checkContinue (s : TrackerState) (h : s.pc = WPC.checkLoop)
      (hr : s.stopRequested = false) :
      TrackerStep s { s with pc := WPC.midCycle }
  | checkExit (s : TrackerState) (h : s.pc = WPC.checkLoop)
      (hr : s.stopRequested = true) :
      TrackerStep s { s with pc := WPC.exited }
  | cycle (s : TrackerState) (h : s.pc = WPC.midCycle) :
      TrackerStep s { s with pc := WPC.waiting, mutations := s.mutations + 1 }
  | wait (s : TrackerState) (h : s.pc = WPC.waiting) :
      TrackerStep s { s with pc := WPC.checkLoop }
  | stopCall (s : TrackerState) (h : s.stopReturned = false) :
      TrackerStep s { s with stopRequested := true, stopReturned := true }

/-- State right after `start()`: worker at the loop head, nothing stopped. -/
def trackerStart : TrackerState := ⟨false, false, WPC.checkLoop, 0⟩

/-- C7 as stated: no store mutation initiated by the worker can be observed
after `stop()` has returned. -/
def claimC7Stated : Prop :=
  ∀ s s' : TrackerState, Relation.ReflTransGen TrackerStep trackerStart s →
    s.stopReturned = true → TrackerStep s s' → s'.mutations = s.mutations

/-! C8: `DataTracker.perform_update` (tracker.py lines 68-81) -/

/-- One cycle of the worker: `try: new_data = self.fetch_data();
self.data_manager.update_questions(new_data) except Exception as e: print`.
The external fetch result is modelled as an `Except`; a raised exception is
caught — the store is left untouched and the error is only reported (returned
as data, not re-raised: the codomain has no exception channel). -/
def perform_update {ε : Type} (mh : Nat) (now : String)
    (fetched : Except ε (List Question)) (s : Store) : Store × Option ε :=
  match fetched with
  | Except.error e => (s, some e)
  | Except.ok qs => ((update_questions mh now s qs).1, none)

/-- The scheduler loop of `run()` (tracker.py lines 50-56), one
`perform_update` per scheduled tick, threading the store through and
collecting the reported error of each cycle. -/
def runLoop {ε : Type} (mh : Nat)
    (cycles : List (String × Except ε (List Question))) (s : Store) :
    Store × List (Option ε) :=
  match cycles with
  | [] => (s, [])
  | c :: rest =>
    let r := perform_update mh c.1 c.2 s
    let rr := runLoop mh rest r.1
    (rr.1, r.2 :: rr.2)

/-! C9: `add_to_watched` / `remove_from_watched` (data.py lines 186-205) -/

/-- Model of DataManager.add_to_watched: `if question_url not in
self.watched_questions and question_url in self.questions:` copy the latest
stored snapshot into the watched dict and persist it; otherwise do nothing.
The returned Bool records whether the watched file was saved.  `none` models
the `IndexError` Python would raise on `self.questions[question_url][-1]`
with an empty history — unreachable under the store invariant (claim C3). -/
def add_to_watched (questions : Store) (watched : WatchSet) (url : String) :
    Option (WatchSet × Bool) :=
  if (dictFind watched url).isSome then some (watched, false)
  else
    match dictFind questions url with
    | none => some (watched, false)
    | some h =>
      match h.getLast? with
      | some q => some (dictSet watched url q, true)
      | none => none

/-- Model of DataManager.remove_from_watched: delete the key and persist if
watched,
else do nothing.  The Bool records whether the watched file was saved. -/
def remove_from_watched (watched : WatchSet) (url : String) : WatchSet × Bool :=
  if (dictFind watched url).isSome then (dictErase watched url, true)
  else (watched, false)

/-- C10 as stated: every entry of `ChangeRecord.new` carries the
engine-assigned `saved_at` and equals the snapshot stored as the
latest history entry of that identity. -/
def claimC10Stated : Prop :=
  ∀ (mh : Nat) (now : String) (s : Store) (qs : List Question),
    ∀ q' ∈ (update_questions mh now s qs).2.new,
      q'.saved_at = some now ∧
      ∃ h, dictFind (update_questions mh now s qs).1 q'.question_url = some h ∧
        h.getLast? = some q'

/-! Basic dictionary lemmas -/

theorem dictFind_dictSet {β : Type} (d : List (String × β)) (k k' : String) (v : β) :
    dictFind (dictSet d k v) k' = if k = k' then some v else dictFind d k' := by
  induction d with
  | nil => simp [dictSet, dictFind]
  | cons p rest ih =>
    obtain ⟨a, b⟩ := p
    by_cases h1 : a = k
    · subst h1
      by_cases h2 : a = k' <;> simp [dictSet, dictFind, h2]
    · by_cases h2 : a = k'
      · subst h2
        have hk : ¬ k = a := fun h => h1 h.symm
        simp [dictSet, dictFind, h1, hk]
      · simp [dictSet, dictFind, h1, h2, ih]

/-- Effect of one `update_question_history` on lookups: the touched key gets
the appended-and-truncated history, all other keys are unchanged. -/
theorem dictFind_uqh (mh : Nat) (now : String) (s : Store) (url : String)
    (q : Question) (k : String) :
    dictFind (update_question_history mh now s url q) k =
      if url = k
      then some (truncateHistory mh (((dictFind s url).getD []) ++ [stamp now q]))
      else dictFind s k := by
  simp [update_question_history, dictFind_dictSet]

/-- The store produced by the `update_questions` loop is the left fold of
`update_question_history` over the batch (the change bookkeeping does not
touch the store). -/
theorem update_questions_store (mh : Nat) (now : String) (s : Store)
    (qs : List Question) :
    (update_questions mh now s qs).1 =
      qs.foldl (fun s q => update_question_history mh now s q.question_url q) s := by
  induction qs generalizing s with
  | nil => rfl
  | cons q rest ih =>
    simp only [update_questions, List.foldl]
    cases h : ((dictFind s q.question_url).getD []).getLast? with
    | none => simpa using ih _
    | some old =>
      by_cases hvi : q.view_total - old.view_total ≠ 0 ∨ q.answer_total - old.answer_total ≠ 0 <;>
        simp [hvi] <;> exact ih _

/-- Equation for `update_questions` on a batch head whose url has no prior
snapshot (unknown key or empty history): the stamped item goes to `new`. -/
theorem update_questions_cons_new (mh : Nat) (now : String) (s : Store)
    (q : Question) (rest : List Question)
    (hl : ((dictFind s q.question_url).getD []).getLast? = none) :
    update_questions mh now s (q :: rest) =
      (let r := update_questions mh now
          (update_question_history mh now s q.question_url q) rest
       (r.1, ⟨r.2.updated, stamp now q :: r.2.new⟩)) := by
  simp only [update_questions]
  rw [hl]

/-- Equation for `update_questions` on a batch head with a prior snapshot and
a non-zero increment: an updated entry is recorded. -/
theorem update_questions_cons_upd (mh : Nat) (now : String) (s : Store)
    (q : Question) (rest : List Question) (old : Question)
    (hl : ((dictFind s q.question_url).getD []).getLast? = some old)
    (hne : q.view_total - old.view_total ≠ 0 ∨ q.answer_total - old.answer_total ≠ 0) :
    update_questions mh now s (q :: rest) =
      (let r := update_questions mh now
          (update_question_history mh now s q.question_url q) rest
       (r.1, ⟨⟨q.question_url, q.view_total - old.view_total,
               q.answer_total - old.answer_total⟩ :: r.2.updated, r.2.new⟩)) := by
  simp only [update_questions]
  rw [hl]
  simp [hne]

/-- Equation for `update_questions` on a batch head with a prior snapshot and
zero increments: no change-record entry at all. -/
theorem update_questions_cons_same (mh : Nat) (now : String) (s : Store)
    (q : Question) (rest : List Question) (old : Question)
    (hl : ((dictFind s q.question_url).getD []).getLast? = some old)
    (hv : q.view_total - old.view_total = 0) (ha : q.answer_total - old.answer_total = 0) :
    update_questions mh now s (q :: rest) =
      update_questions mh now
        (update_question_history mh now s q.question_url q) rest := by
  simp only [update_questions]
  rw [hl]
  simp [hv, ha]

/-- With `max_history ≥ 1`, the freshly stamped record survives the eviction
and is the last element of the new history. -/
theorem truncate_append_last (mh : Nat) (hmh : 1 ≤ mh) (h : History) (x : Question) :
    ∃ pre, truncateHistory mh (h ++ [x]) = pre ++ [x] := by
  refine ⟨h.drop ((h ++ [x]).length - mh), ?_⟩
  unfold truncateHistory
  rw [List.drop_append_eq_append_drop]
  have hlen : (h ++ [x]).length - mh ≤ h.length := by
    simp only [List.length_append, List.length_singleton]
    omega
  have : ((h ++ [x]).length - mh) - h.length = 0 := by omega
  rw [this]
  simp

/-- C1, merge step: processing the head item `q` of a batch against store `s`.
If the url of `q` has no (or an empty) stored history the stamped item is recorded
exactly once in `new` and nothing is added to `updated`; otherwise the
increments are computed against the last stored snapshot and an updated entry
is recorded iff one of them is non-zero; in every case the item is appended,
stamped with `saved_at = now`, as the new last history entry. -/
theorem claim_C1_merge_step (mh : Nat) (now : String) (s : Store)
    (q : Question) (rest : List Question) (hmh : 1 ≤ mh) :
    let url := q.question_url
    let h := (dictFind s url).getD []
    let s1 := update_question_history mh now s url q
    let r := update_questions mh now s (q :: rest)
    let rr := update_questions mh now s1 rest
    r.1 = rr.1 ∧
    (h.getLast? = none →
      r.2.new = stamp now q :: rr.2.new ∧ r.2.updated = rr.2.updated) ∧
    (∀ old, h.getLast? = some old →
      r.2.new = rr.2.new ∧
      (let vi := q.view_total - old.view_total
       let ai := q.answer_total - old.answer_total
       (vi ≠ 0 ∨ ai ≠ 0 →
         r.2.updated = ⟨url, vi, ai⟩ :: rr.2.updated) ∧
       (vi = 0 ∧ ai = 0 → r.2.updated = rr.2.updated))) ∧
    (stamp now q).saved_at = some now ∧
    (∃ pre, dictFind s1 url = some (pre ++ [stamp now q])) := by
  intro url h s1 r rr
  refine ⟨?_, ?_, ?_, rfl, ?_⟩
  · show (update_questions mh now s (q :: rest)).1 = rr.1
    cases hl : ((dictFind s q.question_url).getD []).getLast? with
    | none => rw [update_questions_cons_new mh now s q rest hl]
    | some old =>
      by_cases hvi : q.view_total - old.view_total ≠ 0 ∨ q.answer_total - old.answer_total ≠ 0
      · rw [update_questions_cons_upd mh now s q rest old hl hvi]
      · push_neg at hvi
        rw [update_questions_cons_same mh now s q rest old hl hvi.1 hvi.2]
  · intro hnone
    have he := update_questions_cons_new mh now s q rest hnone
    exact ⟨congrArg (fun p => p.2.new) he, congrArg (fun p => p.2.updated) he⟩
  · intro old hsome
    by_cases hvi : q.view_total - old.view_total ≠ 0 ∨ q.answer_total - old.answer_total ≠ 0
    · have he := update_questions_cons_upd mh now s q rest old hsome hvi
      exact ⟨congrArg (fun p => p.2.new) he,
        fun _ => congrArg (fun p => p.2.updated) he,
        fun hz => absurd hvi (by simp [hz.1, hz.2])⟩
    · push_neg at hvi
      have he := update_questions_cons_same mh now s q rest old hsome hvi.1 hvi.2
      exact ⟨congrArg (fun p => p.2.new) he,
        fun hn => absurd hn (by simp [hvi.1, hvi.2]),
        fun _ => congrArg (fun p => p.2.updated) he⟩
  · obtain ⟨pre, hpre⟩ := truncate_append_last mh hmh h (stamp now q)
    refine ⟨pre, ?_⟩
    show dictFind (update_question_history mh now s url q) url = _
    rw [dictFind_uqh, if_pos rfl, hpre]

/-- Witness for `claim_C1_merge_step` at a concrete input. -/
theorem claim_C1_merge_step_witness :
    (1 : Nat) ≤ 2 ∧
    (let q : Question := ⟨"u", 10, 2, (7 : Rat), none⟩
     let url := q.question_url
     let h := (dictFind ([] : Store) url).getD []
     let s1 := update_question_history 2 "t0" [] url q
     let r := update_questions 2 "t0" [] [q]
     let rr := update_questions 2 "t0" s1 []
     r.1 = rr.1 ∧
     (h.getLast? = none →
       r.2.new = stamp "t0" q :: rr.2.new ∧ r.2.updated = rr.2.updated) ∧
     (∀ old, h.getLast? = some old →
       r.2.new = rr.2.new ∧
       (let vi := q.view_total - old.view_total
        let ai := q.answer_total - old.answer_total
        (vi ≠ 0 ∨ ai ≠ 0 →
          r.2.updated = ⟨url, vi, ai⟩ :: rr.2.updated) ∧
        (vi = 0 ∧ ai = 0 → r.2.updated = rr.2.updated))) ∧
     (stamp "t0" q).saved_at = some "t0" ∧
     (∃ pre, dictFind s1 url = some (pre ++ [stamp "t0" q]))) :=
  ⟨by decide, claim_C1_merge_step 2 "t0" [] ⟨"u", 10, 2, (7 : Rat), none⟩ [] (by decide)⟩

theorem truncateHistory_length (mh : Nat) (h : History) :
    (truncateHistory mh h).length = h.length - (h.length - mh) := by
  simp [truncateHistory]

/-- Truncating, appending, and truncating again is the same as truncating the
full concatenation: the sliding window forgets nothing that survives. -/
theorem truncate_truncate_append (mh : Nat) (l r : History) :
    truncateHistory mh (truncateHistory mh l ++ r) = truncateHistory mh (l ++ r) := by
  simp only [truncateHistory, List.drop_append_eq_append_drop, List.drop_drop,
    List.length_append, List.length_drop]
  congr 2 <;> omega

theorem applyIns_some (mh : Nat) (h : History) (hh : h.length ≤ mh) (ins : History) :
    applyIns mh (some h) ins = some (truncateHistory mh (h ++ ins)) := by
  induction ins generalizing h with
  | nil =>
    have : h.length - mh = 0 := by omega
    simp [applyIns, truncateHistory, this]
  | cons x xs ih =>
    have hlen : (truncateHistory mh (h ++ [x])).length ≤ mh := by
      rw [truncateHistory_length]; omega
    calc applyIns mh (some h) (x :: xs)
        = applyIns mh (some (truncateHistory mh (h ++ [x]))) xs := rfl
      _ = some (truncateHistory mh (truncateHistory mh (h ++ [x]) ++ xs)) := ih _ hlen
      _ = some (truncateHistory mh ((h ++ [x]) ++ xs)) := by
          rw [truncate_truncate_append]
      _ = some (truncateHistory mh (h ++ x :: xs)) := by
          rw [List.append_assoc]; rfl

/-- Lookup after a fold of single-item insertions is the replay of the own
insertions of that key over its prior history. -/
theorem dictFind_foldl_stepMerge (mh : Nat) (items : List (String × Question))
    (s : Store) (k : String) :
    dictFind (items.foldl (stepMerge mh) s) k =
      applyIns mh (dictFind s k) (insFor k items) := by
  induction items generalizing s with
  | nil => rfl
  | cons p tl ih =>
    obtain ⟨now, q⟩ := p
    by_cases hk : q.question_url = k
    · have hins : insFor k ((now, q) :: tl) = stamp now q :: insFor k tl := by
        simp [insFor, hk]
      rw [List.foldl_cons, ih, hins]
      have : dictFind (stepMerge mh s (now, q)) k =
          some (truncateHistory mh (((dictFind s k).getD []) ++ [stamp now q])) := by
        simp [stepMerge, dictFind_uqh, hk]
      rw [this]
      rfl
    · have hins : insFor k ((now, q) :: tl) = insFor k tl := by
        simp [insFor, hk]
      rw [List.foldl_cons, ih, hins]
      have : dictFind (stepMerge mh s (now, q)) k = dictFind s k := by
        simp [stepMerge, dictFind_uqh, hk]
      rw [this]

/-- A run of `update_questions` calls is the fold of its single-item
insertions. -/
theorem mergeAll_eq_foldl (mh : Nat) (batches : List (String × List Question)) :
    mergeAll mh batches = (flattenBatches batches).foldl (stepMerge mh) [] := by
  suffices h : ∀ s, batches.foldl (fun s b => (update_questions mh b.1 s b.2).1) s =
      (flattenBatches batches).foldl (stepMerge mh) s by
    exact h []
  induction batches with
  | nil => intro s; rfl
  | cons b tl ih =>
    intro s
    have hfb : flattenBatches (b :: tl) =
        b.2.map (fun q => (b.1, q)) ++ flattenBatches tl := by
      simp [flattenBatches]
    rw [List.foldl_cons, ih, hfb, List.foldl_append]
    congr 1
    rw [update_questions_store, List.foldl_map]
    rfl

/-- C3: after any sequence of merges from the empty store (with
`max_history ≥ 1`), the stored history of each key is exactly the at-most-`mh`
most recent insertions for that key, in insertion order (oldest evicted
first); every stored history has length between 1 and `mh`; and a key is
present iff something was inserted for it (so presence ⇔ non-empty history). -/
theorem applyIns_none (mh : Nat) (hmh : 1 ≤ mh) (ins : History) :
    applyIns mh none ins =
      if ins = [] then none else some (ins.drop (ins.length - mh)) := by
  cases ins with
  | nil => rfl
  | cons x xs =>
    rw [if_neg (by simp)]
    have h1 : (truncateHistory mh [x]).length ≤ mh := by
      rw [truncateHistory_length]
      simp only [List.length_singleton]
      omega
    have hx : truncateHistory mh [x] = [x] := by
      show [x].drop ([x].length - mh) = [x]
      simp only [List.length_singleton]
      have h0 : 1 - mh = 0 := by omega
      rw [h0]
      rfl
    calc applyIns mh none (x :: xs)
        = applyIns mh (some (truncateHistory mh [x])) xs := rfl
      _ = some (truncateHistory mh (truncateHistory mh [x] ++ xs)) := applyIns_some _ _ h1 _
      _ = some (truncateHistory mh ([x] ++ xs)) := by rw [hx]
      _ = some ((x :: xs).drop ((x :: xs).length - mh)) := by
          rw [List.singleton_append]
          rfl

theorem claim_C3_store_invariant (mh : Nat) (hmh : 1 ≤ mh)
    (batches : List (String × List Question)) (k : String) :
    (dictFind (mergeAll mh batches) k =
      if insFor k (flattenBatches batches) = [] then none
      else some ((insFor k (flattenBatches batches)).drop
        ((insFor k (flattenBatches batches)).length - mh))) ∧
    (∀ h, dictFind (mergeAll mh batches) k = some h →
      1 ≤ h.length ∧ h.length ≤ mh ∧
      h = (insFor k (flattenBatches batches)).drop
        ((insFor k (flattenBatches batches)).length - mh)) := by
  have hfind : dictFind (mergeAll mh batches) k =
      if insFor k (flattenBatches batches) = [] then none
      else some ((insFor k (flattenBatches batches)).drop
        ((insFor k (flattenBatches batches)).length - mh)) := by
    rw [mergeAll_eq_foldl, dictFind_foldl_stepMerge]
    exact applyIns_none mh hmh _
  refine ⟨hfind, ?_⟩
  intro h hsome
  rw [hfind] at hsome
  by_cases hins : insFor k (flattenBatches batches) = []
  · simp [hins] at hsome
  · rw [if_neg hins] at hsome
    have hh : h = (insFor k (flattenBatches batches)).drop
        ((insFor k (flattenBatches batches)).length - mh) := by
      injection hsome with h'
      exact h'.symm
    have hl : h.length = (insFor k (flattenBatches batches)).length -
        ((insFor k (flattenBatches batches)).length - mh) := by
      rw [hh, List.length_drop]
    have hpos : 1 ≤ (insFor k (flattenBatches batches)).length :=
      List.length_pos.mpr hins
    exact ⟨by omega, by omega, hh⟩

/-- Witness for `claim_C3_store_invariant` at a concrete run. -/
theorem claim_C3_store_invariant_witness :
    (1 : Nat) ≤ 1 ∧
    ((dictFind (mergeAll 1 [("t0", [⟨"u", 10, 2, (7 : Rat), none⟩]),
        ("t1", [⟨"u", 30, 3, (7 : Rat), none⟩])]) "u" =
      if insFor "u" (flattenBatches [("t0", [⟨"u", 10, 2, (7 : Rat), none⟩]),
        ("t1", [⟨"u", 30, 3, (7 : Rat), none⟩])]) = [] then none
      else some ((insFor "u" (flattenBatches [("t0", [⟨"u", 10, 2, (7 : Rat), none⟩]),
        ("t1", [⟨"u", 30, 3, (7 : Rat), none⟩])])).drop
        ((insFor "u" (flattenBatches [("t0", [⟨"u", 10, 2, (7 : Rat), none⟩]),
        ("t1", [⟨"u", 30, 3, (7 : Rat), none⟩])])).length - 1))) ∧
    (∀ h, dictFind (mergeAll 1 [("t0", [⟨"u", 10, 2, (7 : Rat), none⟩]),
        ("t1", [⟨"u", 30, 3, (7 : Rat), none⟩])]) "u" = some h →
      1 ≤ h.length ∧ h.length ≤ 1 ∧
      h = (insFor "u" (flattenBatches [("t0", [⟨"u", 10, 2, (7 : Rat), none⟩]),
        ("t1", [⟨"u", 30, 3, (7 : Rat), none⟩])])).drop
        ((insFor "u" (flattenBatches [("t0", [⟨"u", 10, 2, (7 : Rat), none⟩]),
        ("t1", [⟨"u", 30, 3, (7 : Rat), none⟩])])).length - 1))) :=
  ⟨by decide, claim_C3_store_invariant 1 (by decide)
    [("t0", [⟨"u", 10, 2, (7 : Rat), none⟩]), ("t1", [⟨"u", 30, 3, (7 : Rat), none⟩])] "u"⟩

theorem insertDesc_perm (x : String × History) (l : List (String × History)) :
    (insertDesc x l).Perm (x :: l) := by
  induction l with
  | nil => exact List.Perm.refl _
  | cons y ys ih =>
    by_cases hc : sortKey x < sortKey y
    · simp only [insertDesc, if_pos hc]
      exact (ih.cons y).trans (List.Perm.swap x y ys)
    · simp only [insertDesc, if_neg hc]
      exact List.Perm.refl _

theorem sortDesc_perm (l : List (String × History)) : (sortDesc l).Perm l := by
  induction l with
  | nil => exact List.Perm.refl _
  | cons x xs ih => exact (insertDesc_perm x (sortDesc xs)).trans (ih.cons x)

theorem insertDesc_pairwise (Q : (String × History) → (String × History) → Prop)
    (x : String × History) (l : List (String × History))
    (hl : List.Pairwise (sortRel Q) l) (hx : ∀ y ∈ l, Q x y) :
    List.Pairwise (sortRel Q) (insertDesc x l) := by
  induction l with
  | nil => simp [insertDesc]
  | cons y ys ih =>
    rcases List.pairwise_cons.mp hl with ⟨hy, hys⟩
    by_cases hc : sortKey x < sortKey y
    · simp only [insertDesc, if_pos hc]
      refine List.pairwise_cons.mpr ⟨?_, ih hys (fun z hz => hx z (List.mem_cons_of_mem y hz))⟩
      intro z hz
      rw [(insertDesc_perm x ys).mem_iff] at hz
      rcases List.mem_cons.mp hz with h | h
      · subst h; exact Or.inl hc
      · exact hy z h
    · simp only [insertDesc, if_neg hc]
      push_neg at hc
      refine List.pairwise_cons.mpr ⟨?_, hl⟩
      intro z hz
      rcases List.mem_cons.mp hz with h | h
      · subst h
        rcases hc.lt_or_eq with hlt | heq
        · exact Or.inl hlt
        · exact Or.inr ⟨heq.symm, hx z (List.mem_cons_self z ys)⟩
      · rcases hy z h with hlt | ⟨heq, hQ⟩
        · exact Or.inl (lt_of_lt_of_le hlt hc)
        · rcases hc.lt_or_eq with hlt' | heq'
          · exact Or.inl (heq ▸ hlt')
          · exact Or.inr ⟨heq'.symm.trans heq, hx z (List.mem_cons_of_mem y h)⟩

theorem sortDesc_pairwise (Q : (String × History) → (String × History) → Prop)
    (l : List (String × History)) (hl : List.Pairwise Q l) :
    List.Pairwise (sortRel Q) (sortDesc l) := by
  induction l with
  | nil => exact List.Pairwise.nil
  | cons x xs ih =>
    rcases List.pairwise_cons.mp hl with ⟨hx, hxs⟩
    exact insertDesc_pairwise Q x _ (ih hxs)
      (fun y hy => hx y ((sortDesc_perm xs).mem_iff.mp hy))

theorem pairwise_keyIdx (questions : Store) (hQ : (questions.map Prod.fst).Nodup) :
    List.Pairwise (fun p1 p2 => keyIdx questions p1.1 < keyIdx questions p2.1)
      questions := by
  induction questions with
  | nil => exact List.Pairwise.nil
  | cons p rest ih =>
    rw [List.map_cons, List.nodup_cons] at hQ
    obtain ⟨hp, hrest⟩ := hQ
    refine List.pairwise_cons.mpr ⟨?_, ?_⟩
    · intro q hq
      have hne : p.1 ≠ q.1 := by
        intro h
        exact hp (h ▸ List.mem_map_of_mem Prod.fst hq)
      show keyIdx (p :: rest) p.1 < keyIdx (p :: rest) q.1
      unfold keyIdx
      rw [List.map_cons, List.indexOf_cons_self, List.indexOf_cons_ne _ hne]
      exact Nat.succ_pos _
    · refine List.Pairwise.imp_of_mem ?_ (ih hrest)
      intro a b ha hb hab
      have hna : p.1 ≠ a.1 := fun h => hp (h ▸ List.mem_map_of_mem Prod.fst ha)
      have hnb : p.1 ≠ b.1 := fun h => hp (h ▸ List.mem_map_of_mem Prod.fst hb)
      show keyIdx (p :: rest) a.1 < keyIdx (p :: rest) b.1
      unfold keyIdx at hab ⊢
      rw [List.map_cons, List.indexOf_cons_ne _ hna, List.indexOf_cons_ne _ hnb]
      omega

/-- In a dict with no duplicate keys, looking up the key of a member returns
its value. -/
theorem dictFind_of_mem {β : Type} {d : List (String × β)} {p : String × β}
    (hQ : (d.map Prod.fst).Nodup) (hp : p ∈ d) : dictFind d p.1 = some p.2 := by
  induction d with
  | nil => cases hp
  | cons r rest ih =>
    rw [List.map_cons, List.nodup_cons] at hQ
    rcases List.mem_cons.mp hp with h | h
    · subst h; simp [dictFind]
    · have hne : r.1 ≠ p.1 := fun hh => hQ.1 (hh ▸ List.mem_map_of_mem Prod.fst h)
      simp [dictFind, hne, ih hQ.2 h]

/-! Rewrite equations for the two projection passes. -/

theorem watchedPass_cons_some (questions : Store) (w : String × Question)
    (ws : List (String × Question)) (q : Question)
    (hq : ((dictFind questions w.1).getD []).getLast? = some q) :
    watchedPass questions (w :: ws) =
      (q :: (watchedPass questions ws).1, w.1 :: (watchedPass questions ws).2) := by
  simp [watchedPass, hq]

theorem watchedPass_cons_none (questions : Store) (w : String × Question)
    (ws : List (String × Question))
    (hq : ((dictFind questions w.1).getD []).getLast? = none) :
    watchedPass questions (w :: ws) = watchedPass questions ws := by
  simp [watchedPass, hq]

theorem rankedPass_cons_none (seen : List String) (kh : String × History)
    (rest : List (String × History)) (hq : kh.2.getLast? = none) :
    rankedPass seen (kh :: rest) = rankedPass seen rest := by
  simp [rankedPass, hq]

theorem rankedPass_cons_seen (seen : List String) (kh : String × History)
    (rest : List (String × History)) (q : Question)
    (hq : kh.2.getLast? = some q) (hm : kh.1 ∈ seen) :
    rankedPass seen (kh :: rest) = rankedPass seen rest := by
  simp [rankedPass, hq, hm]

theorem rankedPass_cons_take (seen : List String) (kh : String × History)
    (rest : List (String × History)) (q : Question)
    (hq : kh.2.getLast? = some q) (hm : kh.1 ∉ seen) :
    rankedPass seen (kh :: rest) =
      (q :: (rankedPass (seen ++ [kh.1]) rest).1,
       kh.1 :: (rankedPass (seen ++ [kh.1]) rest).2) := by
  simp [rankedPass, hq, hm]

/-- Keys emitted by the ranked pass form a sublist of the input key order. -/
theorem rankedPass_ids_sublist (seen : List String) (l : List (String × History)) :
    (rankedPass seen l).2.Sublist (l.map Prod.fst) := by
  induction l generalizing seen with
  | nil => exact List.nil_sublist _
  | cons kh rest ih =>
    rw [List.map_cons]
    cases hq : kh.2.getLast? with
    | none => rw [rankedPass_cons_none seen kh rest hq]; exact (ih seen).cons _
    | some q =>
      by_cases hm : kh.1 ∈ seen
      · rw [rankedPass_cons_seen seen kh rest q hq hm]; exact (ih seen).cons _
      · rw [rankedPass_cons_take seen kh rest q hq hm]
        exact (ih (seen ++ [kh.1])).cons₂ _

/-- The ranked pass never emits a key it was told was already seen. -/
theorem rankedPass_not_mem_seen (seen : List String) (l : List (String × History))
    (k : String) (hk : k ∈ (rankedPass seen l).2) : k ∉ seen := by
  induction l generalizing seen with
  | nil => simp [rankedPass] at hk
  | cons kh rest ih =>
    cases hq : kh.2.getLast? with
    | none =>
      rw [rankedPass_cons_none seen kh rest hq] at hk
      exact ih seen hk
    | some q =>
      by_cases hm : kh.1 ∈ seen
      · rw [rankedPass_cons_seen seen kh rest q hq hm] at hk
        exact ih seen hk
      · rw [rankedPass_cons_take seen kh rest q hq hm] at hk
        rcases List.mem_cons.mp hk with h | h
        · subst h; exact hm
        · intro hks
          exact ih (seen ++ [kh.1]) h (List.mem_append_left _ hks)

/-- The ranked pass emits each key at most once. -/
theorem rankedPass_ids_nodup (seen : List String) (l : List (String × History)) :
    (rankedPass seen l).2.Nodup := by
  induction l generalizing seen with
  | nil => simp [rankedPass]
  | cons kh rest ih =>
    cases hq : kh.2.getLast? with
    | none => rw [rankedPass_cons_none seen kh rest hq]; exact ih seen
    | some q =>
      by_cases hm : kh.1 ∈ seen
      · rw [rankedPass_cons_seen seen kh rest q hq hm]; exact ih seen
      · rw [rankedPass_cons_take seen kh rest q hq hm]
        refine List.nodup_cons.mpr ⟨?_, ih (seen ++ [kh.1])⟩
        intro hmem
        exact rankedPass_not_mem_seen _ _ _ hmem
          (List.mem_append_right _ (List.mem_singleton.mpr rfl))

/-- The watched pass emits exactly the watched keys that still have a
non-empty history, in watch-set insertion order. -/
theorem watchedPass_ids (questions : Store) (ws : List (String × Question)) :
    (watchedPass questions ws).2 =
      (ws.map Prod.fst).filter
        (fun k => (((dictFind questions k).getD []).getLast?).isSome) := by
  induction ws with
  | nil => rfl
  | cons w tl ih =>
    cases hq : ((dictFind questions w.1).getD []).getLast? with
    | none =>
      rw [watchedPass_cons_none questions w tl hq, List.map_cons, List.filter_cons]
      simp [hq, ih]
    | some q =>
      rw [watchedPass_cons_some questions w tl q hq, List.map_cons, List.filter_cons]
      simp [hq, ih]

/-- Each output of the watched pass is the latest stored snapshot of the
correspondingly-positioned emitted key. -/
theorem watchedPass_pairs (questions : Store) (ws : List (String × Question)) :
    List.Forall₂ (fun q k => ((dictFind questions k).getD []).getLast? = some q)
      (watchedPass questions ws).1 (watchedPass questions ws).2 := by
  induction ws with
  | nil => exact List.Forall₂.nil
  | cons w tl ih =>
    cases hq : ((dictFind questions w.1).getD []).getLast? with
    | none => rw [watchedPass_cons_none questions w tl hq]; exact ih
    | some q =>
      rw [watchedPass_cons_some questions w tl q hq]
      exact List.Forall₂.cons hq ih

/-- Each output of the ranked pass is the latest stored snapshot of the
correspondingly-positioned emitted key (when keys are unique and the pass runs
over store members). -/
theorem rankedPass_pairs (questions : Store) (hQ : (questions.map Prod.fst).Nodup)
    (seen : List String) (l : List (String × History))
    (hsub : ∀ kh ∈ l, kh ∈ questions) :
    List.Forall₂ (fun q k => ((dictFind questions k).getD []).getLast? = some q)
      (rankedPass seen l).1 (rankedPass seen l).2 := by
  induction l generalizing seen with
  | nil => exact List.Forall₂.nil
  | cons kh rest ih =>
    have hrest : ∀ p ∈ rest, p ∈ questions :=
      fun p hp => hsub p (List.mem_cons_of_mem kh hp)
    cases hq : kh.2.getLast? with
    | none => rw [rankedPass_cons_none seen kh rest hq]; exact ih seen hrest
    | some q =>
      by_cases hm : kh.1 ∈ seen
      · rw [rankedPass_cons_seen seen kh rest q hq hm]; exact ih seen hrest
      · rw [rankedPass_cons_take seen kh rest q hq hm]
        refine List.Forall₂.cons ?_ (ih (seen ++ [kh.1]) hrest)
        rw [dictFind_of_mem hQ (hsub kh (List.mem_cons_self kh rest))]
        exact hq

/-- Componentwise appending respects `Forall₂`. -/
theorem forall2_app {α β : Type} {R : α → β → Prop} {l₁ u₁ : List α} {l₂ u₂ : List β}
    (h1 : List.Forall₂ R l₁ l₂) (h2 : List.Forall₂ R u₁ u₂) :
    List.Forall₂ R (l₁ ++ u₁) (l₂ ++ u₂) := by
  induction h1 with
  | nil => exact h2
  | cons hr _ ih => exact List.Forall₂.cons hr ih

theorem sortKey_eq_oldest (questions : Store) (hQ : (questions.map Prod.fst).Nodup)
    (p : String × History) (hp : p ∈ questions) :
    sortKey p = oldestScore questions p.1 := by
  rw [oldestScore, dictFind_of_mem hQ hp]
  cases h : p.2.head? <;> simp [sortKey, h]

/-- C4: the projection lists every watched, still-present identity (in watch
insertion order) before every other identity; the ranked tail never repeats a
watched identity; no identity appears twice; and each emitted snapshot is the
latest stored snapshot of its identity. -/
theorem claim_C4_watched_first (questions : Store) (watched : WatchSet)
    (hW : (watched.map Prod.fst).Nodup) (hQ : (questions.map Prod.fst).Nodup) :
    ((get_question_list_aux questions watched).2 =
      ((watched.map Prod.fst).filter
        (fun k => (((dictFind questions k).getD []).getLast?).isSome)) ++
      (rankedPass (watchedPass questions watched).2 (sortDesc questions)).2) ∧
    (∀ k ∈ (rankedPass (watchedPass questions watched).2 (sortDesc questions)).2,
      k ∉ (watchedPass questions watched).2) ∧
    (get_question_list_aux questions watched).2.Nodup ∧
    List.Forall₂ (fun q k => ((dictFind questions k).getD []).getLast? = some q)
      (get_question_list_aux questions watched).1
      (get_question_list_aux questions watched).2 := by
  refine ⟨?_, ?_, ?_, ?_⟩
  · show (watchedPass questions watched).2 ++ _ = _
    rw [watchedPass_ids]
  · intro k hk
    exact rankedPass_not_mem_seen _ _ _ hk
  · show ((watchedPass questions watched).2 ++
      (rankedPass (watchedPass questions watched).2 (sortDesc questions)).2).Nodup
    refine List.Nodup.append ?_ (rankedPass_ids_nodup _ _) ?_
    · rw [watchedPass_ids]
      exact hW.filter _
    · intro a ha hb
      exact rankedPass_not_mem_seen _ _ _ hb ha
  · show List.Forall₂ _
      ((watchedPass questions watched).1 ++
        (rankedPass (watchedPass questions watched).2 (sortDesc questions)).1)
      ((watchedPass questions watched).2 ++
        (rankedPass (watchedPass questions watched).2 (sortDesc questions)).2)
    exact forall2_app (watchedPass_pairs questions watched)
      (rankedPass_pairs questions hQ _ _
        (fun kh hkh => (sortDesc_perm questions).mem_iff.mp hkh))

/-- Witness for `claim_C4_watched_first` at a concrete input. -/
theorem claim_C4_watched_first_witness :
    (([("b", ⟨"b", 0, 0, 5, some "t"⟩)] : WatchSet).map Prod.fst).Nodup ∧
    ((cexStore.map Prod.fst).Nodup) ∧
    (((get_question_list_aux cexStore [("b", ⟨"b", 0, 0, 5, some "t"⟩)]).2 =
      (([("b", ⟨"b", 0, 0, 5, some "t"⟩)] : WatchSet).map Prod.fst).filter
        (fun k => (((dictFind cexStore k).getD []).getLast?).isSome) ++
      (rankedPass (watchedPass cexStore [("b", ⟨"b", 0, 0, 5, some "t"⟩)]).2
        (sortDesc cexStore)).2) ∧
    (∀ k ∈ (rankedPass (watchedPass cexStore [("b", ⟨"b", 0, 0, 5, some "t"⟩)]).2
        (sortDesc cexStore)).2,
      k ∉ (watchedPass cexStore [("b", ⟨"b", 0, 0, 5, some "t"⟩)]).2) ∧
    (get_question_list_aux cexStore [("b", ⟨"b", 0, 0, 5, some "t"⟩)]).2.Nodup ∧
    List.Forall₂ (fun q k => ((dictFind cexStore k).getD []).getLast? = some q)
      (get_question_list_aux cexStore [("b", ⟨"b", 0, 0, 5, some "t"⟩)]).1
      (get_question_list_aux cexStore [("b", ⟨"b", 0, 0, 5, some "t"⟩)]).2) :=
  ⟨by decide, by decide,
    claim_C4_watched_first cexStore [("b", ⟨"b", 0, 0, 5, some "t"⟩)]
      (by decide) (by decide)⟩

/-- C2 as stated is false on the code: with the empty watch set the whole
output is the ranked section, and on `cexStore` the code emits "b" (latest
score 5) before "a" (latest score 10), because `get_question_list` sorts by
the potential score of the OLDEST history entry (`x[1][0]`), not the most
recent one. -/
theorem claim_C2_counterexample :
    (get_question_list_aux cexStore []).2 = ["b", "a"] ∧
    latestScore cexStore "b" < latestScore cexStore "a" ∧
    ¬ List.Pairwise
        (fun k1 k2 => latestScore cexStore k2 ≤ latestScore cexStore k1)
        (get_question_list_aux cexStore []).2 := by
  refine ⟨by decide, by decide, ?_⟩
  intro h
  have h1 : (get_question_list_aux cexStore []).2 = ["b", "a"] := by decide
  rw [h1] at h
  have h2 := (List.pairwise_cons.mp h).1 "a" (List.mem_singleton.mpr rfl)
  have h3 : ¬ latestScore cexStore "a" ≤ latestScore cexStore "b" := by decide
  exact h3 h2

/-- C2 amended: the non-watched identities appear ordered by descending
potential score of the OLDEST retained snapshot of each identity (the first
history entry — what the sort key of the code reads), with ties broken
stably by the original key order of the store. -/
theorem claim_C2_amended (questions : Store) (watched : WatchSet)
    (hQ : (questions.map Prod.fst).Nodup) :
    List.Pairwise (fun k1 k2 =>
      oldestScore questions k2 < oldestScore questions k1 ∨
      (oldestScore questions k1 = oldestScore questions k2 ∧
        keyIdx questions k1 < keyIdx questions k2))
      (rankedPass (watchedPass questions watched).2 (sortDesc questions)).2 := by
  have hpair : List.Pairwise
      (sortRel (fun p1 p2 => keyIdx questions p1.1 < keyIdx questions p2.1))
      (sortDesc questions) :=
    sortDesc_pairwise _ _ (pairwise_keyIdx questions hQ)
  have hkeys : List.Pairwise (fun k1 k2 =>
      oldestScore questions k2 < oldestScore questions k1 ∨
      (oldestScore questions k1 = oldestScore questions k2 ∧
        keyIdx questions k1 < keyIdx questions k2))
      ((sortDesc questions).map Prod.fst) := by
    rw [List.pairwise_map]
    refine List.Pairwise.imp_of_mem ?_ hpair
    intro a b ha hb hab
    have ha' : a ∈ questions := (sortDesc_perm questions).mem_iff.mp ha
    have hb' : b ∈ questions := (sortDesc_perm questions).mem_iff.mp hb
    rw [sortRel, sortKey_eq_oldest questions hQ a ha',
      sortKey_eq_oldest questions hQ b hb'] at hab
    exact hab
  exact List.Pairwise.sublist (rankedPass_ids_sublist _ _) hkeys

/-- Witness for `claim_C2_amended` at a concrete input. -/
theorem claim_C2_amended_witness :
    (cexStore.map Prod.fst).Nodup ∧
    List.Pairwise (fun k1 k2 =>
      oldestScore cexStore k2 < oldestScore cexStore k1 ∨
      (oldestScore cexStore k1 = oldestScore cexStore k2 ∧
        keyIdx cexStore k1 < keyIdx cexStore k2))
      (rankedPass (watchedPass cexStore []).2 (sortDesc cexStore)).2 :=
  ⟨by decide, claim_C2_amended cexStore [] (by decide)⟩

theorem notifyFrom_spec {α ε : Type} (d : α) (ls : List (α → Except ε Unit))
    (i : Nat) :
    ((notifyFrom d i ls).2 = none →
      (notifyFrom d i ls).1 = List.range' i ls.length) ∧
    (∀ e, (notifyFrom d i ls).2 = some e →
      ∃ k, ∃ hk : k < ls.length,
        (notifyFrom d i ls).1 = List.range' i (k + 1) ∧
        ls.get ⟨k, hk⟩ d = Except.error e ∧
        ∀ j (hj : j < k), ∃ u, ls.get ⟨j, Nat.lt_trans hj hk⟩ d = Except.ok u) := by
  induction ls generalizing i with
  | nil =>
    refine ⟨fun _ => rfl, fun e he => ?_⟩
    simp [notifyFrom] at he
  | cons l rest ih =>
    cases hl : l d with
    | ok u =>
      have hfe : notifyFrom d i (l :: rest) =
          (i :: (notifyFrom d (i + 1) rest).1, (notifyFrom d (i + 1) rest).2) := by
        simp [notifyFrom, hl]
      constructor
      · intro hnone
        rw [hfe] at hnone ⊢
        rw [(ih (i + 1)).1 hnone]
        rfl
      · intro e he
        rw [hfe] at he
        obtain ⟨k, hk, hids, herr, hok⟩ := (ih (i + 1)).2 e he
        refine ⟨k + 1, Nat.succ_lt_succ hk, ?_, herr, ?_⟩
        · rw [hfe, hids]
          rfl
        · intro j hj
          cases j with
          | zero => exact ⟨u, hl⟩
          | succ j' => exact hok j' (Nat.lt_of_succ_lt_succ hj)
    | error e0 =>
      have hfe : notifyFrom d i (l :: rest) = ([i], some e0) := by
        simp [notifyFrom, hl]
      constructor
      · intro hnone
        rw [hfe] at hnone
        simp at hnone
      · intro e he
        rw [hfe] at he
        have he0 : e0 = e := by
          injection he with h'
        refine ⟨0, Nat.succ_pos _, ?_, ?_, ?_⟩
        · rw [hfe]
          rfl
        · show l d = Except.error e
          rw [hl, he0]
        · intro j hj
          omega

/-- C5 is false on the code: with two listeners where the first raises, the
second (index 1) is never invoked — the exception propagates and aborts the
broadcast instead of being isolated. -/
theorem claim_C5_counterexample :
    notify_listeners
      [fun _ => Except.error "boom", fun _ => Except.ok ()] (42 : Nat) =
      ([0], some "boom") ∧
    ([0] : List Nat) ≠ List.range 2 := by
  exact ⟨rfl, by decide⟩

/-- C5 amended: observers are invoked synchronously in registration order,
and all of them are invoked when none fails; but when the update of an observer
raises, the iteration stops there — exactly the observers up to and including
the failing one were invoked, the exception escapes, and later-registered
observers are NOT notified. -/
theorem claim_C5_amended {α ε : Type} (ls : List (α → Except ε Unit)) (d : α) :
    ((notify_listeners ls d).2 = none →
      (notify_listeners ls d).1 = List.range ls.length) ∧
    (∀ e, (notify_listeners ls d).2 = some e →
      ∃ k, ∃ hk : k < ls.length,
        (notify_listeners ls d).1 = List.range (k + 1) ∧
        ls.get ⟨k, hk⟩ d = Except.error e ∧
        ∀ j (hj : j < k), ∃ u, ls.get ⟨j, Nat.lt_trans hj hk⟩ d = Except.ok u) := by
  have h := notifyFrom_spec d ls 0
  constructor
  · intro hnone
    rw [List.range_eq_range']
    exact h.1 hnone
  · intro e he
    obtain ⟨k, hk, hids, herr, hok⟩ := h.2 e he
    refine ⟨k, hk, ?_, herr, hok⟩
    rw [List.range_eq_range']
    exact hids

/-- Witness for `claim_C5_amended` at a concrete input. -/
theorem claim_C5_amended_witness :
    ((notify_listeners okListeners 7).2 = none →
      (notify_listeners okListeners 7).1 = List.range okListeners.length) ∧
    (∀ e, (notify_listeners okListeners 7).2 = some e →
      ∃ k, ∃ hk : k < okListeners.length,
        (notify_listeners okListeners 7).1 = List.range (k + 1) ∧
        okListeners.get ⟨k, hk⟩ 7 = Except.error e ∧
        ∀ j (hj : j < k), ∃ u, okListeners.get ⟨j, Nat.lt_trans hj hk⟩ 7 =
          Except.ok u) :=
  claim_C5_amended okListeners 7

/-- C6: in every merge cycle the persisted-store effect occurs strictly
before the notification effect, and the notified state is exactly the
persisted state (the fully merged store). -/
theorem claim_C6_persist_before_notify (mh : Nat) (now dataFile : String)
    (s : Store) (qs : List Question) :
    ((update_questions_run mh now dataFile s qs).2 =
      [Effect.save dataFile (update_questions mh now s qs).1,
       Effect.notifyAll (update_questions mh now s qs).1]) ∧
    (∀ (i j : Fin (update_questions_run mh now dataFile s qs).2.length)
      (p : String) (st st' : Store),
      (update_questions_run mh now dataFile s qs).2.get i = Effect.save p st →
      (update_questions_run mh now dataFile s qs).2.get j = Effect.notifyAll st' →
      (i : Nat) < (j : Nat) ∧ st' = st) := by
  refine ⟨rfl, ?_⟩
  intro i j p st st' hi hj
  have hlen : (update_questions_run mh now dataFile s qs).2.length = 2 := rfl
  rcases i with ⟨iv, hiv⟩
  rcases j with ⟨jv, hjv⟩
  rw [hlen] at hiv hjv
  interval_cases iv <;> interval_cases jv <;>
    simp_all [update_questions_run, List.get]

/-- Witness for `claim_C6_persist_before_notify` at a concrete input. -/
theorem claim_C6_persist_before_notify_witness :
    ((update_questions_run 3 "t" "questions.json" [] []).2 =
      [Effect.save "questions.json" (update_questions 3 "t" [] []).1,
       Effect.notifyAll (update_questions 3 "t" [] []).1]) ∧
    (∀ (i j : Fin (update_questions_run 3 "t" "questions.json" [] []).2.length)
      (p : String) (st st' : Store),
      (update_questions_run 3 "t" "questions.json" [] []).2.get i = Effect.save p st →
      (update_questions_run 3 "t" "questions.json" [] []).2.get j = Effect.notifyAll st' →
      (i : Nat) < (j : Nat) ∧ st' = st) :=
  claim_C6_persist_before_notify 3 "t" "questions.json" [] []

/-- C7 is false on the code: `stop()` only sets the event and returns at
once, so a cycle already in flight still mutates the store afterwards.
Concrete schedule: worker enters a cycle, `stop()` returns, then its pending
`update_questions` runs. -/
theorem claim_C7_counterexample : ¬ claimC7Stated := by
  intro h
  have h1 : TrackerStep trackerStart ⟨false, false, WPC.midCycle, 0⟩ :=
    TrackerStep.checkContinue trackerStart rfl rfl
  have h2 : TrackerStep ⟨false, false, WPC.midCycle, 0⟩ ⟨true, true, WPC.midCycle, 0⟩ :=
    TrackerStep.stopCall _ rfl
  have h3 : TrackerStep ⟨true, true, WPC.midCycle, 0⟩ ⟨true, true, WPC.waiting, 1⟩ :=
    TrackerStep.cycle _ rfl
  have hr : Relation.ReflTransGen TrackerStep trackerStart ⟨true, true, WPC.midCycle, 0⟩ :=
    Relation.ReflTransGen.head h1 (Relation.ReflTransGen.single h2)
  have hmut := h _ _ hr rfl h3
  exact absurd hmut (by decide)

/-- C7 amended: `stop()` merely sets the stop flag and returns immediately;
the worker exits at its next loop-head check without mutating the store
again; once the worker has exited no further mutation ever occurs; and after
the stop request at most one more mutation (the cycle already in flight) can
happen. -/
theorem claim_C7_amended :
    (∀ s : TrackerState, s.stopReturned = false →
      TrackerStep s { s with stopRequested := true, stopReturned := true }) ∧
    (∀ s s' : TrackerState, s.pc = WPC.exited → TrackerStep s s' →
      s'.mutations = s.mutations ∧ s'.pc = WPC.exited) ∧
    (∀ s s' : TrackerState, s.pc = WPC.checkLoop → s.stopRequested = true →
      TrackerStep s s' → s'.mutations = s.mutations) ∧
    (∀ s s' : TrackerState, s.stopRequested = true →
      Relation.ReflTransGen TrackerStep s s' →
      s'.mutations ≤ s.mutations + (if s.pc = WPC.midCycle then 1 else 0)) := by
  refine ⟨?_, ?_, ?_, ?_⟩
  · intro s h
    exact TrackerStep.stopCall s h
  · intro s s' hpc hstep
    cases hstep with
    | checkContinue h hr => rw [hpc] at h; simp at h
    | checkExit h hr => rw [hpc] at h; simp at h
    | cycle h => rw [hpc] at h; simp at h
    | wait h => rw [hpc] at h; simp at h
    | stopCall h => exact ⟨rfl, hpc⟩
  · intro s s' hpc hreq hstep
    cases hstep with
    | checkContinue h hr => rw [hreq] at hr
    | checkExit h hr => rfl
    | cycle h => rw [hpc] at h; simp at h
    | wait h => rw [hpc] at h
    | stopCall h => rfl
  · intro s s' hreq
    revert hreq
    intro hreq hreach
    revert hreq
    induction hreach using Relation.ReflTransGen.head_induction_on with
    | refl =>
      intro _
      split <;> omega
    | head hstep htail ih =>
      intro hreq
      cases hstep with
      | checkContinue h hr => rw [hreq] at hr; simp at hr
      | checkExit h hr =>
        have hc := ih hreq
        rw [h]
        simp only [show (WPC.exited = WPC.midCycle) = False by simp] at hc
        simp only [show (WPC.checkLoop = WPC.midCycle) = False by simp]
        omega
      | cycle h =>
        have hc := ih hreq
        rw [h]
        simp only [show (WPC.waiting = WPC.midCycle) = False by simp] at hc
        simp only [show (WPC.midCycle = WPC.midCycle) = True by simp]
        simp only [if_false, if_true] at hc ⊢
        omega
      | wait h =>
        have hc := ih hreq
        rw [h]
        simp only [show (WPC.checkLoop = WPC.midCycle) = False by simp] at hc
        simp only [show (WPC.waiting = WPC.midCycle) = False by simp]
        omega
      | stopCall h =>
        exact ih rfl

/-- Witness for `claim_C7_amended` at a concrete state: a worker at the loop
head with the stop flag set exits without touching the store. -/
theorem claim_C7_amended_witness :
    (⟨true, true, WPC.checkLoop, 5⟩ : TrackerState).pc = WPC.checkLoop ∧
    (⟨true, true, WPC.checkLoop, 5⟩ : TrackerState).stopRequested = true ∧
    TrackerStep ⟨true, true, WPC.checkLoop, 5⟩ ⟨true, true, WPC.exited, 5⟩ ∧
    (⟨true, true, WPC.exited, 5⟩ : TrackerState).mutations =
      (⟨true, true, WPC.checkLoop, 5⟩ : TrackerState).mutations :=
  ⟨rfl, rfl, TrackerStep.checkExit _ rfl rfl,
    claim_C7_amended.2.2.1 ⟨true, true, WPC.checkLoop, 5⟩ ⟨true, true, WPC.exited, 5⟩
      rfl rfl (TrackerStep.checkExit _ rfl rfl)⟩

theorem runLoop_append {ε : Type} (mh : Nat)
    (a b : List (String × Except ε (List Question))) (s : Store) :
    runLoop mh (a ++ b) s =
      ((runLoop mh b (runLoop mh a s).1).1,
       (runLoop mh a s).2 ++ (runLoop mh b (runLoop mh a s).1).2) := by
  induction a generalizing s with
  | nil => rfl
  | cons c tl ih =>
    show runLoop mh (c :: (tl ++ b)) s = _
    simp only [runLoop, ih]
    rfl

/-- C8: a failed fetch leaves the store unchanged and reports (not raises)
the error; a cycle whose fetch fails is transparent to the rest of the run —
the final store with the failing cycle inserted anywhere equals the one
without it, and subsequent cycles all still run, the failing tick
contributing exactly one `some e` report in place. -/
theorem claim_C8_fetch_error_skipped {ε : Type} (mh : Nat) (now : String)
    (e : ε) (s : Store) (a b : List (String × Except ε (List Question))) :
    (perform_update mh now (Except.error e) s = (s, some e)) ∧
    ((runLoop mh (a ++ (now, Except.error e) :: b) s).1 = (runLoop mh (a ++ b) s).1) ∧
    ((runLoop mh (a ++ (now, Except.error e) :: b) s).2 =
      (runLoop mh a s).2 ++ some e :: (runLoop mh b (runLoop mh a s).1).2) := by
  refine ⟨rfl, ?_, ?_⟩
  · rw [runLoop_append, runLoop_append]
    show (runLoop mh b (perform_update mh now (Except.error e) (runLoop mh a s).1).1).1 = _
    rfl
  · rw [runLoop_append]
    show _ ++ ((some e) :: (runLoop mh b
      (perform_update mh now (Except.error e) (runLoop mh a s).1).1).2) = _
    rfl

theorem dictFind_dictErase_self {β : Type} (d : List (String × β)) (k : String) :
    dictFind (dictErase d k) k = none := by
  induction d with
  | nil => rfl
  | cons p rest ih =>
    by_cases hk : p.1 = k
    · simpa [dictErase, List.filter_cons, hk] using ih
    · simpa [dictErase, List.filter_cons, hk, dictFind] using ih

/-- C9: `add_to_watched` is a no-op (watch set unchanged, nothing saved) when
the identity is already watched or unknown to the store; otherwise it copies
the current latest snapshot of the identity into the watch set; `remove_from_watched`
is a no-op when the identity is not watched; and remove-then-add restores
watched status with the then-current latest snapshot captured. -/
theorem claim_C9_watch_ops (questions : Store) (watched : WatchSet) (url : String) :
    ((dictFind watched url).isSome = true →
      add_to_watched questions watched url = some (watched, false)) ∧
    (dictFind questions url = none →
      add_to_watched questions watched url = some (watched, false)) ∧
    (∀ h q, dictFind watched url = none → dictFind questions url = some h →
      h.getLast? = some q →
      add_to_watched questions watched url = some (dictSet watched url q, true)) ∧
    (dictFind watched url = none →
      remove_from_watched watched url = (watched, false)) ∧
    (∀ h q, dictFind questions url = some h → h.getLast? = some q →
      ∃ w2, add_to_watched questions (remove_from_watched watched url).1 url =
        some (w2, true) ∧ dictFind w2 url = some q) := by
  refine ⟨?_, ?_, ?_, ?_, ?_⟩
  · intro hw
    simp [add_to_watched, hw]
  · intro hq
    by_cases hw : (dictFind watched url).isSome
    · simp [add_to_watched, hw]
    · simp [add_to_watched, hw, hq]
  · intro h q hw hq hql
    simp [add_to_watched, hw, hq, hql]
  · intro hw
    simp [remove_from_watched, hw]
  · intro h q hq hql
    have hw1 : dictFind (remove_from_watched watched url).1 url = none := by
      by_cases hw : (dictFind watched url).isSome
      · simp [remove_from_watched, hw, dictFind_dictErase_self]
      · simp only [remove_from_watched, if_neg hw]
        exact Option.not_isSome_iff_eq_none.mp hw
    refine ⟨dictSet (remove_from_watched watched url).1 url q, ?_, ?_⟩
    · simp [add_to_watched, hw1, hq, hql]
    · rw [dictFind_dictSet]
      simp

/-- Witness for `claim_C9_watch_ops` at a concrete input. -/
theorem claim_C9_watch_ops_witness :
    ((dictFind ([("a", ⟨"a", 0, 0, 1, some "t"⟩)] : WatchSet) "a").isSome = true →
      add_to_watched cexStore [("a", ⟨"a", 0, 0, 1, some "t"⟩)] "a" =
        some ([("a", ⟨"a", 0, 0, 1, some "t"⟩)], false)) ∧
    (dictFind cexStore "a" = none →
      add_to_watched cexStore [("a", ⟨"a", 0, 0, 1, some "t"⟩)] "a" =
        some ([("a", ⟨"a", 0, 0, 1, some "t"⟩)], false)) ∧
    (∀ h q, dictFind ([("a", ⟨"a", 0, 0, 1, some "t"⟩)] : WatchSet) "a" = none →
      dictFind cexStore "a" = some h → h.getLast? = some q →
      add_to_watched cexStore [("a", ⟨"a", 0, 0, 1, some "t"⟩)] "a" =
        some (dictSet [("a", ⟨"a", 0, 0, 1, some "t"⟩)] "a" q, true)) ∧
    (dictFind ([("a", ⟨"a", 0, 0, 1, some "t"⟩)] : WatchSet) "a" = none →
      remove_from_watched [("a", ⟨"a", 0, 0, 1, some "t"⟩)] "a" =
        ([("a", ⟨"a", 0, 0, 1, some "t"⟩)], false)) ∧
    (∀ h q, dictFind cexStore "a" = some h → h.getLast? = some q →
      ∃ w2, add_to_watched cexStore
          (remove_from_watched [("a", ⟨"a", 0, 0, 1, some "t"⟩)] "a").1 "a" =
        some (w2, true) ∧ dictFind w2 "a" = some q) :=
  claim_C9_watch_ops cexStore [("a", ⟨"a", 0, 0, 1, some "t"⟩)] "a"

/-! C10: the `new` entries carry the engine stamp and are the stored
snapshots -/

/-- The history update for the head item commutes out of the `update_questions`
recursion: the final store is independent of which change branch ran. -/
theorem uq_cons_fst (mh : Nat) (now : String) (s : Store) (q : Question)
    (rest : List Question) :
    (update_questions mh now s (q :: rest)).1 =
      (update_questions mh now
        (update_question_history mh now s q.question_url q) rest).1 := by
  cases hl : ((dictFind s q.question_url).getD []).getLast? with
  | none =>
    rw [update_questions_cons_new mh now s q rest hl]
  | some old =>
    by_cases hvi : q.view_total - old.view_total ≠ 0 ∨ q.answer_total - old.answer_total ≠ 0
    · rw [update_questions_cons_upd mh now s q rest old hl hvi]
    · push_neg at hvi
      rw [update_questions_cons_same mh now s q rest old hl hvi.1 hvi.2]

theorem uq_cons_new_of_none (mh : Nat) (now : String) (s : Store) (q : Question)
    (rest : List Question)
    (hl : ((dictFind s q.question_url).getD []).getLast? = none) :
    (update_questions mh now s (q :: rest)).2.new =
      stamp now q :: (update_questions mh now
        (update_question_history mh now s q.question_url q) rest).2.new :=
  congrArg (fun p => p.2.new) (update_questions_cons_new mh now s q rest hl)

theorem uq_cons_new_of_some (mh : Nat) (now : String) (s : Store) (q : Question)
    (rest : List Question) (old : Question)
    (hl : ((dictFind s q.question_url).getD []).getLast? = some old) :
    (update_questions mh now s (q :: rest)).2.new =
      (update_questions mh now
        (update_question_history mh now s q.question_url q) rest).2.new := by
  by_cases hvi : q.view_total - old.view_total ≠ 0 ∨ q.answer_total - old.answer_total ≠ 0
  · exact congrArg (fun p => p.2.new) (update_questions_cons_upd mh now s q rest old hl hvi)
  · push_neg at hvi
    exact congrArg (fun p => p.2.new)
      (update_questions_cons_same mh now s q rest old hl hvi.1 hvi.2)

/-- Lookup in the store produced by one `update_questions` call, via the
per-key replay of the insertions of that key. -/
theorem dictFind_update_questions (mh : Nat) (now : String) (s : Store)
    (qs : List Question) (k : String) :
    dictFind (update_questions mh now s qs).1 k =
      applyIns mh (dictFind s k) (insFor k (qs.map (fun q => (now, q)))) := by
  rw [update_questions_store]
  have hf : qs.foldl (fun s q => update_question_history mh now s q.question_url q) s =
      (qs.map (fun q => (now, q))).foldl (stepMerge mh) s := by
    rw [List.foldl_map]
    rfl
  rw [hf, dictFind_foldl_stepMerge]

theorem truncate_singleton (mh : Nat) (hmh : 1 ≤ mh) (x : Question) :
    truncateHistory mh [x] = [x] := by
  show [x].drop ([x].length - mh) = [x]
  simp only [List.length_singleton]
  have h0 : 1 - mh = 0 := by omega
  rw [h0]
  rfl

/-- C10 as universally stated is false: if the same identity occurs twice in
one batch, the first occurrence is recorded in `new` but the second becomes
the latest history entry, so the `new` entry is no longer the stored latest
snapshot at return time. -/
theorem claim_C10_counterexample : ¬ claimC10Stated := by
  intro hcl
  have hm : (⟨"d", 1, 0, 2, some "t"⟩ : Question) ∈
      (update_questions 3 "t" [] [⟨"d", 1, 0, 2, none⟩, ⟨"d", 2, 0, 2, none⟩]).2.new := by
    decide
  obtain ⟨hsa, h', hfind, hlast⟩ :=
    hcl 3 "t" [] [⟨"d", 1, 0, 2, none⟩, ⟨"d", 2, 0, 2, none⟩] _ hm
  have hfind2 : dictFind (update_questions 3 "t" []
      [⟨"d", 1, 0, 2, none⟩, ⟨"d", 2, 0, 2, none⟩]).1
      (⟨"d", 1, 0, 2, some "t"⟩ : Question).question_url =
      some [⟨"d", 1, 0, 2, some "t"⟩, ⟨"d", 2, 0, 2, some "t"⟩] := by decide
  rw [hfind2] at hfind
  injection hfind with hh
  rw [← hh] at hlast
  exact absurd hlast (by decide)

/-- C10 amended: `update_questions` stamps `saved_at = now` on the incoming
record itself before storing it, and every entry of `ChangeRecord.new` is
that stamped record; provided the batch contains each identity at most once
(and `max_history ≥ 1`), each `new` entry is also exactly the snapshot stored
as the latest history entry of its identity at return time. -/
theorem claim_C10_amended (mh : Nat) (now : String) (s : Store)
    (qs : List Question) (hmh : 1 ≤ mh)
    (hnd : (qs.map Question.question_url).Nodup) :
    ∀ q' ∈ (update_questions mh now s qs).2.new,
      q'.saved_at = some now ∧
      ∃ h, dictFind (update_questions mh now s qs).1 q'.question_url = some h ∧
        h.getLast? = some q' := by
  revert hnd
  induction qs generalizing s with
  | nil =>
    intro hnd q' hq'
    simp [update_questions] at hq'
  | cons q rest ih =>
    intro hnd q' hq'
    rw [List.map_cons, List.nodup_cons] at hnd
    obtain ⟨hq_not, hnd'⟩ := hnd
    cases hl : ((dictFind s q.question_url).getD []).getLast? with
    | some old =>
      rw [uq_cons_new_of_some mh now s q rest old hl] at hq'
      have hres := ih _ hnd' q' hq'
      rw [uq_cons_fst]
      exact hres
    | none =>
      rw [uq_cons_new_of_none mh now s q rest hl] at hq'
      rcases List.mem_cons.mp hq' with hq2 | hq2
      · subst hq2
        refine ⟨rfl, ?_⟩
        rw [uq_cons_fst, dictFind_update_questions]
        have hins : insFor (stamp now q).question_url
            (rest.map (fun r => (now, r))) = [] := by
          have hf : ∀ p ∈ rest.map (fun r => (now, r)),
              ¬ (p.2.question_url = (stamp now q).question_url) := by
            intro p hp
            obtain ⟨r, hr, hpr⟩ := List.mem_map.mp hp
            rw [← hpr]
            intro hEq
            exact hq_not (hEq ▸ List.mem_map_of_mem Question.question_url hr)
          unfold insFor
          rw [List.filter_eq_nil_iff.mpr (by
            intro a ha
            simpa using hf a ha)]
          rfl
        rw [hins]
        show ∃ h, dictFind (update_question_history mh now s q.question_url q)
          q.question_url = some h ∧ h.getLast? = some (stamp now q)
        have h0 : (dictFind s q.question_url).getD [] = [] :=
          List.getLast?_eq_none_iff.mp hl
        rw [dictFind_uqh, if_pos rfl, h0]
        refine ⟨truncateHistory mh ([] ++ [stamp now q]), rfl, ?_⟩
        rw [List.nil_append, truncate_singleton mh hmh]
        rfl
      · have hres := ih _ hnd' q' hq2
        rw [uq_cons_fst]
        exact hres

/-- Witness for `claim_C10_amended` at a concrete input. -/
theorem claim_C10_amended_witness :
    (1 : Nat) ≤ 2 ∧
    (([⟨"u", 10, 2, (7 : Rat), none⟩] : List Question).map Question.question_url).Nodup ∧
    (∀ q' ∈ (update_questions 2 "t0" [] [⟨"u", 10, 2, (7 : Rat), none⟩]).2.new,
      q'.saved_at = some "t0" ∧
      ∃ h, dictFind (update_questions 2 "t0" [] [⟨"u", 10, 2, (7 : Rat), none⟩]).1
          q'.question_url = some h ∧
        h.getLast? = some q') :=
  ⟨by decide, by decide,
    claim_C10_amended 2 "t0" [] [⟨"u", 10, 2, (7 : Rat), none⟩] (by decide) (by decide)⟩

end ZQT
